import Mathlib

/-!
Verification development for `arm-wchar-tag.c`, a utility that reads and
patches the `Tag_ABI_PCS_wchar_t` value (tag 18) inside the ARM EABI
attributes section of an ELF file.

The file is modelled shallowly:

* the open file is a finite byte list `List Nat` (bytes `< 256`); the file
  descriptor's read/write cursor is an explicit `Nat` (`fp`);
* `read` of one byte is `List.get?`; a short read (end of file) is an error;
* `lseek`/`write` are pure functions on the list and the cursor;
* the C functions `parse_uleb128`, `parse_ntbs`,
  `parse_eabi_attr_aeabi_subsection` and `parse_eabi_attr_section` become
  pure functions threading `(file, fp, pos)` explicitly, with `pos` the
  position counter relative to the current section/subsection exactly as in
  the source;
* machine arithmetic: `result` in `parse_uleb128` is C `unsigned long`
  (modelled for an LP64 host, 64 bits); the intermediate
  `(byte & 0x7f) << shift` is computed at C type `int` (32 bits).  Signed
  overflow and oversized shifts are undefined behaviour in C; they are
  modelled here the way common compilers execute them: the shift is the
  mathematical shift reduced `% 2^32`, and the `int → unsigned long`
  conversion sign-extends;
* the two loops whose step can consume a variable number of bytes
  (the tag-dispatch loop and the subsection walk) take an explicit fuel
  argument; fuel exhaustion is the distinguished result `PRes.more`, and
  it is proved below that the fuel supplied by the wrappers suffices.
-/

/-- Result of a fueled computation: success, the C functions' nonzero
error return, or fuel exhaustion (never reached with sufficient fuel). -/
inductive PRes (α : Type) where
  | ok : α → PRes α
  | err : PRes α
  | more : PRes α
deriving DecidableEq

/-- One console report produced by the tag-18 branch of the dispatcher:
`off` is the file offset one before the cursor after decoding the value
(the offset the patch writes to), `width` the number of bytes the value's
ULEB128 encoding consumed, `value` the decoded value, `refused` whether
the "old value is too big" message was printed, `wrote` whether the
one-byte patch write was performed. -/
structure Report where
  off : Nat
  width : Nat
  value : Nat
  refused : Bool
  wrote : Bool
deriving DecidableEq

/-- The contribution `(byte & 0x7f) << shift` of one ULEB128 byte, as the
C source computes it: at type `int` (32-bit, two's complement; overflow
and shifts ≥ 32 are UB in C, modelled as wrap `% 2^32`), then converted to
`unsigned long` (64-bit) by sign extension for the `|=`. -/
def ulebContrib (b shift : Nat) : Nat :=
  let x := ((b &&& 0x7f) <<< shift) % (2 ^ 32)
  if x < 2 ^ 31 then x else x + (2 ^ 64 - 2 ^ 32)

/-- The loop of `parse_uleb128` (src lines 36-56): `shift` and `acc` are
the loop-carried `shift` and `*result`.  Returns `(result, fp', pos')` on
success, `none` on a short read or an unterminated encoding.  `gas` is a
structural-recursion scaffold: the wrapper passes `size - pos`, and since
every iteration increments `pos`, along wrapper-reachable states `gas = 0`
holds exactly when `pos ≥ size`, i.e. exactly when the C loop guard
`*pos < size` stops the loop. -/
def ulebAux (f : List Nat) : Nat → Nat → Nat → Nat → Nat → Nat →
    Option (Nat × Nat × Nat)
  | 0, fp, pos, _, _, acc => some (acc, fp, pos)
  | gas + 1, fp, pos, size, shift, acc =>
    if pos < size then
      match f.get? fp with
      | none => none
      | some b =>
        let acc' := acc ||| ulebContrib b shift
        if b &&& 0x80 = 0 then some (acc', fp + 1, pos + 1)
        else if size ≤ pos + 1 then none
        else ulebAux f gas (fp + 1) (pos + 1) size (shift + 7) acc'
    else some (acc, fp, pos)

/-- C `parse_uleb128` (src lines 29-59): reads a ULEB128 value bounded by
`size`, starting at section-relative position `pos` and file offset `fp`. -/
def parse_uleb128 (f : List Nat) (fp pos size : Nat) :
    Option (Nat × Nat × Nat) :=
  ulebAux f (size - pos) fp pos size 0 0

/-- C `parse_ntbs` (src lines 66-103): reads a null-terminated string
bounded by `size`.  Returns the bytes before the terminator together with
the new file offset and position.  `gas` is the same structural scaffold
as in `ulebAux`.  (The C capture buffer is applied by the caller; see
`parse_eabi_attr_section`, which truncates to the 127 bytes that fit
`vendor_name[128]`.  A buffer left untouched because the bound was
already reached is modelled as the empty string.) -/
def ntbsAux (f : List Nat) : Nat → Nat → Nat → Nat →
    Option (List Nat × Nat × Nat)
  | 0, fp, pos, _ => some ([], fp, pos)
  | gas + 1, fp, pos, size =>
    if pos < size then
      match f.get? fp with
      | none => none
      | some b =>
        if b = 0 then some ([], fp + 1, pos + 1)
        else if size ≤ pos + 1 then none
        else
          match ntbsAux f gas (fp + 1) (pos + 1) size with
          | none => none
          | some (s, fp', pos') => some (b :: s, fp', pos')
    else some ([], fp, pos)

/-- Wrapper for `ntbsAux` supplying the exact gas `size - pos`. -/
def parse_ntbs (f : List Nat) (fp pos size : Nat) :
    Option (List Nat × Nat × Nat) :=
  ntbsAux f (size - pos) fp pos size

/-- The do-while loop on src lines 130-135: skip ULEB128 section/symbol
identifiers until a zero value is read. -/
def skipIds (fuel : Nat) (f : List Nat) (fp pos size : Nat) :
    PRes (Nat × Nat) :=
  match fuel with
  | 0 => .more
  | fuel + 1 =>
    match parse_uleb128 f fp pos size with
    | none => .err
    | some (id, fp', pos') =>
      if id = 0 then .ok (fp', pos') else skipIds fuel f fp' pos' size

/-- Prepend a report to the report list of a successful dispatcher run. -/
def consReport (r : Report)
    (p : PRes (List Nat × List Report × Nat × Nat)) :
    PRes (List Nat × List Report × Nat × Nat) :=
  match p with
  | .ok (f, rs, fp, pos) => .ok (f, r :: rs, fp, pos)
  | .err => .err
  | .more => .more

/-- The one-byte in-place patch: C `write(fd, &wchar_size, 1)` at offset
`off` after `lseek(fd, -1, SEEK_CUR)`.  A write at the end of the file
appends (POSIX extends the file); a write past the end (sparse file) is
not modelled and no claim depends on it. -/
def fwrite (f : List Nat) (off b : Nat) : Option (List Nat) :=
  if off < f.length then some (f.set off b)
  else if off = f.length then some (f ++ [b])
  else none

/-- The byte the patch write stores: the `char wchar_size` argument's
two's-complement byte. -/
def byteOfChar (w : Int) : Nat := (w % 256).toNat

/-- The tag-dispatch loop of `parse_eabi_attr_aeabi_subsection`
(src lines 138-201).  `w` is the `char wchar_size` argument; `w < 0` means
read-only mode.  Note the faithful reproduction of the source's tag-18
branch: when `value > 0x7f` the refusal message is printed (`refused`)
but, the `if` having no `else`, the seek-back-one and one-byte write still
happen. -/
def dispLoop (fuel : Nat) (f : List Nat) (fp pos size : Nat) (w : Int) :
    PRes (List Nat × List Report × Nat × Nat) :=
  match fuel with
  | 0 => .more
  | fuel + 1 =>
    if pos < size then
      match parse_uleb128 f fp pos size with
      | none => .err
      | some (attr, fp1, pos1) =>
        if attr = 4 ∨ attr = 5 ∨ attr = 67 ∨ attr = 32 then
          match parse_ntbs f fp1 pos1 size with
          | none => .err
          | some (_, fp2, pos2) => dispLoop fuel f fp2 pos2 size w
        else if attr = 18 then
          match parse_uleb128 f fp1 pos1 size with
          | none => .err
          | some (v, fp2, pos2) =>
            if 0 ≤ w then
              if fp2 = 0 then .err
              else
                match fwrite f (fp2 - 1) (byteOfChar w) with
                | none => .err
                | some f' =>
                  consReport ⟨fp2 - 1, pos2 - pos1, v, decide (0x7f < v), true⟩
                    (dispLoop fuel f' fp2 pos2 size w)
            else
              consReport ⟨fp2 - 1, pos2 - pos1, v, false, false⟩
                (dispLoop fuel f fp2 pos2 size w)
        else if 32 < attr then
          if attr % 2 = 0 then
            match parse_uleb128 f fp1 pos1 size with
            | none => .err
            | some (_, fp2, pos2) => dispLoop fuel f fp2 pos2 size w
          else
            match parse_ntbs f fp1 pos1 size with
            | none => .err
            | some (_, fp2, pos2) => dispLoop fuel f fp2 pos2 size w
        else
          match parse_uleb128 f fp1 pos1 size with
          | none => .err
          | some (_, fp2, pos2) => dispLoop fuel f fp2 pos2 size w
    else .ok (f, [], fp, pos)

/-- C `parse_eabi_attr_aeabi_subsection` (src lines 106-204): the guard
`sh_size < 1`, the read of the indicator tag byte, the section/symbol
identifier skip, then the tag-dispatch loop.  The internal fuel `size + 1`
is sufficient (proved below). -/
def parse_eabi_attr_aeabi_subsection (f : List Nat) (fp pos size : Nat)
    (w : Int) : PRes (List Nat × List Report × Nat × Nat) :=
  if size < 1 then .err
  else
    match f.get? fp with
    | none => .err
    | some tag =>
      if tag = 2 ∨ tag = 3 then
        match skipIds (size + 1) f (fp + 1) (pos + 1) size with
        | .err => .err
        | .more => .more
        | .ok (fp2, pos2) => dispLoop (size + 1) f fp2 pos2 size w
      else dispLoop (size + 1) f (fp + 1) (pos + 1) size w

/-- The raw 4-byte read of the `Elf32_Word subsect_size` field
(src line 239), assembled in host (little-endian) byte order. -/
def read4 (f : List Nat) (fp : Nat) : Option Nat :=
  match f.get? fp, f.get? (fp + 1), f.get? (fp + 2), f.get? (fp + 3) with
  | some b0, some b1, some b2, some b3 =>
    some (b0 + 256 * b1 + 65536 * b2 + 16777216 * b3)
  | _, _, _, _ => none

/-- The vendor name the aeabi test compares against (`"aeabi"`). -/
def aeabiName : List Nat := [97, 101, 97, 98, 105]

/-- One iteration of the subsection loop of `parse_eabi_attr_section`
(src lines 231-275): length-field bounds check, 4-byte length read,
subsection bounds check, vendor-name read, then either the aeabi
dispatcher or the skip of an unknown subsection.  The source's skip
(src line 265) tests `lseek(...) != -1`, i.e. it treats a *successful*
relative seek as the error case; a failed seek (target offset negative)
leaves the cursor where it was and continues with `spos = subsect_size`. -/
def wstep (f : List Nat) (fp pos size : Nat) (w : Int) :
    PRes (List Nat × Nat × Nat) :=
  if size < pos + 4 then .err
  else
    match read4 f fp with
    | none => .err
    | some len =>
      if size < pos + len then .err
      else
        match parse_ntbs f (fp + 4) 4 len with
        | none => .err
        | some (name, fp1, spos1) =>
          if name.take 127 = aeabiName then
            match parse_eabi_attr_aeabi_subsection f fp1 spos1 len w with
            | .err => .err
            | .more => .more
            | .ok (f', _, fp2, spos2) => .ok (f', fp2, pos + spos2)
          else
            if 0 ≤ (fp1 : Int) + (len : Int) - (spos1 : Int) then .err
            else .ok (f, fp1, pos + len)

/-- The subsection loop of `parse_eabi_attr_section` (src lines 231-275). -/
def wloop (fuel : Nat) (f : List Nat) (fp pos size : Nat) (w : Int) :
    PRes (List Nat × Nat × Nat) :=
  match fuel with
  | 0 => .more
  | fuel + 1 =>
    if pos < size then
      match wstep f fp pos size w with
      | .err => .err
      | .more => .more
      | .ok (f', fp', pos') => wloop fuel f' fp' pos' size w
    else .ok (f, fp, pos)

/-- C `parse_eabi_attr_section` (src lines 207-278).  The first component
records whether the "Empty ARM attributes section" message was printed;
note the source prints it and falls through without returning, so the
version byte is read even for a zero-size section. -/
def parse_eabi_attr_section (f : List Nat) (fp size : Nat) (w : Int) :
    Bool × PRes (List Nat × Nat × Nat) :=
  let empty := size < 1
  match f.get? fp with
  | none => (empty, .err)
  | some version =>
    if version = 65 then (empty, wloop (size + 1) f (fp + 1) 1 size w)
    else (empty, .err)

/-- The C cast `(char)wchar_size` (two's-complement truncation to a signed
byte), applied by `main` before calling `process` (src line 407). -/
def charCast (n : Int) : Int := (n + 128) % 256 - 128

/-- The replacement-value validation in `main` (src lines 388-401): after
`sscanf` succeeds the only rejection is `wchar_size > 0x7f`; an accepted
value is passed on as `(char)wchar_size`. -/
def wcharArgCheck (n : Int) : Option Int :=
  if 0x7f < n then none else some (charCast n)

/-- The mathematical ULEB128 decoder: `some v` exactly when the byte list
is a complete encoding (every byte below 0x100, all but the last with the
continuation bit set, the last with it clear), `v` the denoted integer. -/
def ulebSpec : List Nat → Option Nat
  | [] => none
  | [b] => if b < 0x80 then some b else none
  | b :: rest =>
    if 0x80 ≤ b ∧ b < 0x100 then
      (ulebSpec rest).map (fun v => b % 0x80 + 0x80 * v)
    else none


/-! ### Basic byte-level facts -/

set_option maxRecDepth 4096 in
theorem land127_eq_mod : ∀ b : Nat, b < 256 → b &&& 127 = b % 128 := by
  decide

set_option maxRecDepth 4096 in
theorem land128_ne_zero : ∀ b : Nat, 128 ≤ b → b < 256 → b &&& 128 ≠ 0 := by
  decide

set_option maxRecDepth 4096 in
theorem land128_zero : ∀ b : Nat, b < 128 → b &&& 128 = 0 := by
  decide

set_option maxRecDepth 4096 in
theorem lt_128_of_land128_zero : ∀ b : Nat, b < 256 → b &&& 128 = 0 → b < 128 := by
  decide

theorem lor_low_eq_add (a c s : Nat) (ha : a < 2 ^ s) :
    a ||| c * 2 ^ s = a + c * 2 ^ s := by
  calc a ||| c * 2 ^ s = 2 ^ s * c ||| a := by rw [Nat.or_comm, Nat.mul_comm]
    _ = 2 ^ s * c + a := (Nat.mul_add_lt_is_or ha c).symm
    _ = a + c * 2 ^ s := by ring

theorem byteOfChar_eq_toNat (w : Int) (h0 : 0 ≤ w) (h1 : w ≤ 127) :
    byteOfChar w = w.toNat := by
  unfold byteOfChar
  rw [Int.emod_eq_of_lt h0 (by omega)]

/-! ### Bounds and framing for the primitive readers -/

theorem ulebAux_bounds (f : List Nat) (gas : Nat) :
    ∀ fp pos size shift acc v fp' pos',
      ulebAux f gas fp pos size shift acc = some (v, fp', pos') →
      pos ≤ pos' ∧ fp' = fp + (pos' - pos) ∧ (pos < size → pos' ≤ size) ∧
      (pos < size → 0 < gas → pos < pos') := by
  induction gas with
  | zero =>
    intro fp pos size shift acc v fp' pos' h
    simp only [ulebAux, Option.some.injEq, Prod.mk.injEq] at h
    obtain ⟨-, rfl, rfl⟩ := h
    omega
  | succ gas ih =>
    intro fp pos size shift acc v fp' pos' h
    unfold ulebAux at h
    split at h
    · split at h
      · exact absurd h (by simp)
      · rename_i b hb
        split at h
        · simp only [Option.some.injEq, Prod.mk.injEq] at h
          obtain ⟨-, rfl, rfl⟩ := h
          omega
        · split at h
          · exact absurd h (by simp)
          · obtain ⟨h1, h2, h3, h4⟩ := ih _ _ _ _ _ _ _ _ h
            refine ⟨by omega, by omega, fun _ => by omega, fun _ _ => by omega⟩
    · simp only [Option.some.injEq, Prod.mk.injEq] at h
      obtain ⟨-, rfl, rfl⟩ := h
      omega

theorem ulebAux_frame (f g : List Nat) (gas : Nat) :
    ∀ fp pos size shift acc v fp' pos',
      ulebAux f gas fp pos size shift acc = some (v, fp', pos') →
      (∀ i, fp ≤ i → i < fp' → g.get? i = f.get? i) →
      ulebAux g gas fp pos size shift acc = some (v, fp', pos') := by
  induction gas with
  | zero => intro fp pos size shift acc v fp' pos' h _; exact h
  | succ gas ih =>
    intro fp pos size shift acc v fp' pos' h hag
    unfold ulebAux at h ⊢
    split at h
    · rename_i hps
      rw [if_pos hps]
      cases hb : f.get? fp with
      | none => rw [hb] at h; exact absurd h (by simp)
      | some b =>
        have hbnd := ulebAux_bounds f (gas + 1) fp pos size shift acc v fp' pos'
          (by rw [ulebAux, if_pos hps]; exact h)
        have hfp : fp < fp' := by
          obtain ⟨h1, h2, h3, h4⟩ := hbnd
          have := h4 hps (by omega)
          omega
        have hgb : g.get? fp = some b := by rw [hag fp (Nat.le_refl fp) hfp, hb]
        rw [hb] at h
        rw [hgb]
        simp only at h ⊢
        split at h
        · rename_i hterm
          rw [if_pos hterm]
          exact h
        · split at h
          · exact absurd h (by simp)
          · rename_i hterm hend
            rw [if_neg hterm, if_neg hend]
            exact ih _ _ _ _ _ _ _ _ h (fun i hi1 hi2 => hag i (by omega) hi2)
    · rename_i hps
      rw [if_neg hps]
      exact h

theorem uleb_one_byte (f : List Nat) (fp pos size v fp' : Nat)
    (h : parse_uleb128 f fp pos size = some (v, fp', pos + 1)) :
    pos < size ∧ fp' = fp + 1 ∧
    ∃ b, f.get? fp = some b ∧ b &&& 128 = 0 ∧ v = b &&& 127 := by
  unfold parse_uleb128 at h
  have hps : pos < size := by
    by_contra hc
    have hz : size - pos = 0 := by omega
    rw [hz] at h
    simp only [ulebAux, Option.some.injEq, Prod.mk.injEq] at h
    omega
  obtain ⟨gas, hgas⟩ : ∃ gas, size - pos = gas + 1 :=
    ⟨size - pos - 1, by omega⟩
  rw [hgas] at h
  unfold ulebAux at h
  rw [if_pos hps] at h
  cases hb : f.get? fp with
  | none => rw [hb] at h; exact absurd h (by simp)
  | some b =>
    rw [hb] at h
    simp only at h
    split at h
    · rename_i hterm
      simp only [Option.some.injEq, Prod.mk.injEq] at h
      obtain ⟨hv, hfp, -⟩ := h
      refine ⟨hps, hfp.symm, b, rfl, hterm, ?_⟩
      rw [← hv]
      unfold ulebContrib
      simp only [Nat.shiftLeft_zero, Nat.zero_or]
      have h127 : b &&& 127 ≤ 127 := Nat.and_le_right
      rw [Nat.mod_eq_of_lt (by omega), if_pos (by omega)]
    · split at h
      · exact absurd h (by simp)
      · rename_i hterm hend
        obtain ⟨h1, h2, h3, h4⟩ := ulebAux_bounds f gas _ _ _ _ _ _ _ _ h
        have := h4 (by omega) (by omega)
        omega

theorem uleb_single (f : List Nat) (fp pos size b : Nat)
    (hb : f.get? fp = some b) (hlt : b < 128) (hps : pos < size) :
    parse_uleb128 f fp pos size = some (b, fp + 1, pos + 1) := by
  unfold parse_uleb128
  obtain ⟨gas, hgas⟩ : ∃ gas, size - pos = gas + 1 :=
    ⟨size - pos - 1, by omega⟩
  rw [hgas]
  unfold ulebAux
  rw [if_pos hps, hb]
  simp only
  rw [if_pos (land128_zero b hlt)]
  unfold ulebContrib
  simp only [Nat.shiftLeft_zero, Nat.zero_or]
  have h127 : b &&& 127 ≤ 127 := Nat.and_le_right
  rw [Nat.mod_eq_of_lt (by omega), if_pos (by omega),
    land127_eq_mod b (by omega), Nat.mod_eq_of_lt hlt]

theorem ntbsAux_bounds (f : List Nat) (gas : Nat) :
    ∀ fp pos size s fp' pos',
      ntbsAux f gas fp pos size = some (s, fp', pos') →
      pos ≤ pos' ∧ fp' = fp + (pos' - pos) ∧ (pos < size → pos' ≤ size) := by
  induction gas with
  | zero =>
    intro fp pos size s fp' pos' h
    simp only [ntbsAux, Option.some.injEq, Prod.mk.injEq] at h
    obtain ⟨-, rfl, rfl⟩ := h
    omega
  | succ gas ih =>
    intro fp pos size s fp' pos' h
    unfold ntbsAux at h
    split at h
    · split at h
      · exact absurd h (by simp)
      · split at h
        · simp only [Option.some.injEq, Prod.mk.injEq] at h
          obtain ⟨-, rfl, rfl⟩ := h
          omega
        · split at h
          · exact absurd h (by simp)
          · split at h
            · exact absurd h (by simp)
            · rename_i heq
              simp only [Option.some.injEq, Prod.mk.injEq] at h
              obtain ⟨-, rfl, rfl⟩ := h
              obtain ⟨h1, h2, h3⟩ := ih _ _ _ _ _ _ heq
              refine ⟨by omega, by omega, fun _ => by omega⟩
    · simp only [Option.some.injEq, Prod.mk.injEq] at h
      obtain ⟨-, rfl, rfl⟩ := h
      omega

theorem ntbsAux_frame (f g : List Nat) (gas : Nat) :
    ∀ fp pos size s fp' pos',
      ntbsAux f gas fp pos size = some (s, fp', pos') →
      (∀ i, fp ≤ i → i < fp' → g.get? i = f.get? i) →
      ntbsAux g gas fp pos size = some (s, fp', pos') := by
  induction gas with
  | zero => intro fp pos size s fp' pos' h _; exact h
  | succ gas ih =>
    intro fp pos size s fp' pos' h hag
    unfold ntbsAux at h ⊢
    split at h
    · rename_i hps
      rw [if_pos hps]
      cases hb : f.get? fp with
      | none => rw [hb] at h; exact absurd h (by simp)
      | some b =>
        rw [hb] at h
        simp only at h
        have hfp : fp < fp' := by
          by_cases hz : b = 0
          · rw [if_pos hz] at h
            simp only [Option.some.injEq, Prod.mk.injEq] at h
            omega
          · rw [if_neg hz] at h
            split at h
            · exact absurd h (by simp)
            · split at h
              · exact absurd h (by simp)
              · rename_i heq
                simp only [Option.some.injEq, Prod.mk.injEq] at h
                obtain ⟨-, rfl, rfl⟩ := h
                obtain ⟨h1, h2, h3⟩ := ntbsAux_bounds f gas _ _ _ _ _ _ heq
                omega
        have hgb : g.get? fp = some b := by rw [hag fp (Nat.le_refl fp) hfp, hb]
        rw [hgb]
        simp only
        split at h
        · rename_i hz
          rw [if_pos hz]
          exact h
        · rename_i hz
          rw [if_neg hz]
          split at h
          · exact absurd h (by simp)
          · rename_i hend
            rw [if_neg hend]
            split at h
            · exact absurd h (by simp)
            · rename_i heq
              simp only [Option.some.injEq, Prod.mk.injEq] at h
              obtain ⟨hs, hfp2, hpos2⟩ := h
              subst hfp2
              subst hpos2
              rw [ih _ _ _ _ _ _ heq (fun i hi1 hi2 => hag i (by omega) hi2)]
              simp [hs]
    · rename_i hps
      rw [if_neg hps]
      exact h

/-! ### Wrapper-level corollaries -/

theorem uleb_vacuous (f : List Nat) (fp pos size : Nat) (h : size ≤ pos) :
    parse_uleb128 f fp pos size = some (0, fp, pos) := by
  unfold parse_uleb128
  rw [Nat.sub_eq_zero_of_le h]
  rfl

theorem uleb_bounds (f : List Nat) (fp pos size v fp' pos' : Nat)
    (h : parse_uleb128 f fp pos size = some (v, fp', pos')) :
    pos ≤ pos' ∧ fp' = fp + (pos' - pos) ∧ (pos < size → pos' ≤ size) ∧
    (pos < size → pos < pos') := by
  obtain ⟨h1, h2, h3, h4⟩ := ulebAux_bounds f (size - pos) fp pos size 0 0 v fp' pos' h
  exact ⟨h1, h2, h3, fun hps => h4 hps (by omega)⟩

theorem uleb_frame (f g : List Nat) (fp pos size v fp' pos' : Nat)
    (h : parse_uleb128 f fp pos size = some (v, fp', pos'))
    (hag : ∀ i, fp ≤ i → i < fp' → g.get? i = f.get? i) :
    parse_uleb128 g fp pos size = some (v, fp', pos') :=
  ulebAux_frame f g (size - pos) fp pos size 0 0 v fp' pos' h hag

theorem ntbs_bounds (f : List Nat) (fp pos size : Nat) (s : List Nat)
    (fp' pos' : Nat) (h : parse_ntbs f fp pos size = some (s, fp', pos')) :
    pos ≤ pos' ∧ fp' = fp + (pos' - pos) ∧ (pos < size → pos' ≤ size) :=
  ntbsAux_bounds f (size - pos) fp pos size s fp' pos' h

theorem ntbs_frame (f g : List Nat) (fp pos size : Nat) (s : List Nat)
    (fp' pos' : Nat) (h : parse_ntbs f fp pos size = some (s, fp', pos'))
    (hag : ∀ i, fp ≤ i → i < fp' → g.get? i = f.get? i) :
    parse_ntbs g fp pos size = some (s, fp', pos') :=
  ntbsAux_frame f g (size - pos) fp pos size s fp' pos' h hag

/-! ### Lemmas for the identifier-skip loop -/

theorem skipIds_no_more (fuel : Nat) :
    ∀ (f : List Nat) (fp pos size : Nat), size - pos < fuel →
      skipIds fuel f fp pos size ≠ .more := by
  induction fuel with
  | zero => intro f fp pos size h; omega
  | succ fuel ih =>
    intro f fp pos size h
    unfold skipIds
    cases hu : parse_uleb128 f fp pos size with
    | none => simp
    | some t =>
      obtain ⟨id, fp', pos'⟩ := t
      simp only
      split
      · simp
      · rename_i hid
        have hps : pos < size := by
          by_contra hc
          rw [uleb_vacuous f fp pos size (by omega)] at hu
          simp only [Option.some.injEq, Prod.mk.injEq] at hu
          omega
        obtain ⟨h1, h2, h3, h4⟩ := uleb_bounds f fp pos size id fp' pos' hu
        exact ih f fp' pos' size (by have := h4 hps; omega)

theorem skipIds_bounds (fuel : Nat) :
    ∀ (f : List Nat) (fp pos size fp' pos' : Nat),
      skipIds fuel f fp pos size = .ok (fp', pos') →
      pos ≤ pos' ∧ fp' = fp + (pos' - pos) := by
  induction fuel with
  | zero => intro f fp pos size fp' pos' h; exact absurd h (by simp [skipIds])
  | succ fuel ih =>
    intro f fp pos size fp' pos' h
    unfold skipIds at h
    cases hu : parse_uleb128 f fp pos size with
    | none => rw [hu] at h; exact absurd h (by simp)
    | some t =>
      obtain ⟨id, fpa, posa⟩ := t
      rw [hu] at h
      simp only at h
      obtain ⟨h1, h2, h3, h4⟩ := uleb_bounds f fp pos size id fpa posa hu
      split at h
      · simp only [PRes.ok.injEq, Prod.mk.injEq] at h
        obtain ⟨rfl, rfl⟩ := h
        omega
      · obtain ⟨h5, h6⟩ := ih f fpa posa size fp' pos' h
        refine ⟨by omega, by omega⟩

theorem skipIds_frame (fuel : Nat) :
    ∀ (f g : List Nat) (fp pos size fp' pos' : Nat),
      skipIds fuel f fp pos size = .ok (fp', pos') →
      (∀ i, fp ≤ i → i < fp' → g.get? i = f.get? i) →
      skipIds fuel g fp pos size = .ok (fp', pos') := by
  induction fuel with
  | zero => intro f g fp pos size fp' pos' h _; exact absurd h (by simp [skipIds])
  | succ fuel ih =>
    intro f g fp pos size fp' pos' h hag
    unfold skipIds at h ⊢
    cases hu : parse_uleb128 f fp pos size with
    | none => rw [hu] at h; exact absurd h (by simp)
    | some t =>
      obtain ⟨id, fpa, posa⟩ := t
      rw [hu] at h
      simp only at h
      obtain ⟨h1, h2, h3, h4⟩ := uleb_bounds f fp pos size id fpa posa hu
      split at h
      · rename_i hid
        simp only [PRes.ok.injEq, Prod.mk.injEq] at h
        obtain ⟨rfl, rfl⟩ := h
        rw [uleb_frame f g fp pos size id fpa posa hu hag]
        simp [hid]
      · rename_i hid
        obtain ⟨h5, h6⟩ := skipIds_bounds fuel f fpa posa size fp' pos' h
        rw [uleb_frame f g fp pos size id fpa posa hu
          (fun i hi1 hi2 => hag i hi1 (by omega))]
        simp only
        rw [if_neg hid]
        exact ih f g fpa posa size fp' pos' h
          (fun i hi1 hi2 => hag i (by omega) hi2)

/-! ### Lemmas for the tag-dispatch loop -/

theorem consReport_ok (r : Report) (p : PRes (List Nat × List Report × Nat × Nat))
    (g : List Nat) (reps : List Report) (a b : Nat)
    (h : consReport r p = .ok (g, reps, a, b)) :
    ∃ rs, reps = r :: rs ∧ p = .ok (g, rs, a, b) := by
  cases p with
  | ok t =>
    obtain ⟨g', rs', a', b'⟩ := t
    simp only [consReport, PRes.ok.injEq, Prod.mk.injEq] at h
    obtain ⟨rfl, hr, rfl, rfl⟩ := h
    exact ⟨rs', hr.symm, rfl⟩
  | err => exact absurd h (by simp [consReport])
  | more => exact absurd h (by simp [consReport])

theorem dispLoop_mono (fuel : Nat) :
    ∀ (f : List Nat) (fp pos size : Nat) (w : Int) (g : List Nat)
      (reps : List Report) (fp' pos' : Nat),
      dispLoop fuel f fp pos size w = .ok (g, reps, fp', pos') →
      pos ≤ pos' ∧ fp ≤ fp' := by
  induction fuel with
  | zero =>
    intro f fp pos size w g reps fp' pos' h
    exact absurd h (by simp [dispLoop])
  | succ fuel ih =>
    intro f fp pos size w g reps fp' pos' h
    unfold dispLoop at h
    split at h
    · rename_i hps
      cases hu : parse_uleb128 f fp pos size with
      | none => rw [hu] at h; exact absurd h (by simp)
      | some t =>
        obtain ⟨attr, fp1, pos1⟩ := t
        rw [hu] at h
        simp only at h
        obtain ⟨hu1, hu2, hu3, hu4⟩ := uleb_bounds f fp pos size attr fp1 pos1 hu
        split at h
        · cases hn : parse_ntbs f fp1 pos1 size with
          | none => rw [hn] at h; exact absurd h (by simp)
          | some t2 =>
            obtain ⟨s2, fp2, pos2⟩ := t2
            rw [hn] at h
            simp only at h
            obtain ⟨hn1, hn2, hn3⟩ := ntbs_bounds f fp1 pos1 size s2 fp2 pos2 hn
            obtain ⟨m1, m2⟩ := ih _ _ _ _ _ _ _ _ _ h
            exact ⟨by omega, by omega⟩
        · split at h
          · cases hv : parse_uleb128 f fp1 pos1 size with
            | none => rw [hv] at h; exact absurd h (by simp)
            | some t2 =>
              obtain ⟨v, fp2, pos2⟩ := t2
              rw [hv] at h
              simp only at h
              obtain ⟨hv1, hv2, hv3, hv4⟩ := uleb_bounds f fp1 pos1 size v fp2 pos2 hv
              split at h
              · split at h
                · exact absurd h (by simp)
                · cases hw : fwrite f (fp2 - 1) (byteOfChar w) with
                  | none => rw [hw] at h; exact absurd h (by simp)
                  | some f2 =>
                    rw [hw] at h
                    simp only at h
                    obtain ⟨rs, hreps, hrec⟩ := consReport_ok _ _ _ _ _ _ h
                    obtain ⟨m1, m2⟩ := ih _ _ _ _ _ _ _ _ _ hrec
                    exact ⟨by omega, by omega⟩
              · obtain ⟨rs, hreps, hrec⟩ := consReport_ok _ _ _ _ _ _ h
                obtain ⟨m1, m2⟩ := ih _ _ _ _ _ _ _ _ _ hrec
                exact ⟨by omega, by omega⟩
          · split at h
            · split at h
              · cases hv : parse_uleb128 f fp1 pos1 size with
                | none => rw [hv] at h; exact absurd h (by simp)
                | some t2 =>
                  obtain ⟨v, fp2, pos2⟩ := t2
                  rw [hv] at h
                  simp only at h
                  obtain ⟨hv1, hv2, hv3, hv4⟩ := uleb_bounds f fp1 pos1 size v fp2 pos2 hv
                  obtain ⟨m1, m2⟩ := ih _ _ _ _ _ _ _ _ _ h
                  exact ⟨by omega, by omega⟩
              · cases hn : parse_ntbs f fp1 pos1 size with
                | none => rw [hn] at h; exact absurd h (by simp)
                | some t2 =>
                  obtain ⟨s2, fp2, pos2⟩ := t2
                  rw [hn] at h
                  simp only at h
                  obtain ⟨hn1, hn2, hn3⟩ := ntbs_bounds f fp1 pos1 size s2 fp2 pos2 hn
                  obtain ⟨m1, m2⟩ := ih _ _ _ _ _ _ _ _ _ h
                  exact ⟨by omega, by omega⟩
            · cases hv : parse_uleb128 f fp1 pos1 size with
              | none => rw [hv] at h; exact absurd h (by simp)
              | some t2 =>
                obtain ⟨v, fp2, pos2⟩ := t2
                rw [hv] at h
                simp only at h
                obtain ⟨hv1, hv2, hv3, hv4⟩ := uleb_bounds f fp1 pos1 size v fp2 pos2 hv
                obtain ⟨m1, m2⟩ := ih _ _ _ _ _ _ _ _ _ h
                exact ⟨by omega, by omega⟩
    · simp only [PRes.ok.injEq, Prod.mk.injEq] at h
      obtain ⟨-, -, rfl, rfl⟩ := h
      omega

theorem dispLoop_no_more (fuel : Nat) :
    ∀ (f : List Nat) (fp pos size : Nat) (w : Int),
      size - pos < fuel →
      dispLoop fuel f fp pos size w ≠ .more := by
  induction fuel with
  | zero => intro f fp pos size w h; omega
  | succ fuel ih =>
    intro f fp pos size w hfuel
    unfold dispLoop
    split
    · rename_i hps
      cases hu : parse_uleb128 f fp pos size with
      | none => simp
      | some t =>
        obtain ⟨attr, fp1, pos1⟩ := t
        simp only
        obtain ⟨hu1, hu2, hu3, hu4⟩ := uleb_bounds f fp pos size attr fp1 pos1 hu
        have hp1 := hu4 hps
        split
        · cases hn : parse_ntbs f fp1 pos1 size with
          | none => simp
          | some t2 =>
            obtain ⟨s2, fp2, pos2⟩ := t2
            simp only
            obtain ⟨hn1, hn2, hn3⟩ := ntbs_bounds f fp1 pos1 size s2 fp2 pos2 hn
            exact ih _ _ _ _ _ (by omega)
        · split
          · cases hv : parse_uleb128 f fp1 pos1 size with
            | none => simp
            | some t2 =>
              obtain ⟨v, fp2, pos2⟩ := t2
              simp only
              obtain ⟨hv1, hv2, hv3, hv4⟩ := uleb_bounds f fp1 pos1 size v fp2 pos2 hv
              split
              · split
                · simp
                · cases hw : fwrite f (fp2 - 1) (byteOfChar w) with
                  | none => simp
                  | some f2 =>
                    simp only
                    intro hcon
                    have := ih f2 fp2 pos2 size w (by omega)
                    unfold consReport at hcon
                    split at hcon
                    · simp at hcon
                    · simp at hcon
                    · exact this (by assumption)
              · intro hcon
                have := ih f fp2 pos2 size w (by omega)
                unfold consReport at hcon
                split at hcon
                · simp at hcon
                · simp at hcon
                · exact this (by assumption)
          · split
            · split
              · cases hv : parse_uleb128 f fp1 pos1 size with
                | none => simp
                | some t2 =>
                  obtain ⟨v, fp2, pos2⟩ := t2
                  simp only
                  obtain ⟨hv1, hv2, hv3, hv4⟩ := uleb_bounds f fp1 pos1 size v fp2 pos2 hv
                  exact ih _ _ _ _ _ (by omega)
              · cases hn : parse_ntbs f fp1 pos1 size with
                | none => simp
                | some t2 =>
                  obtain ⟨s2, fp2, pos2⟩ := t2
                  simp only
                  obtain ⟨hn1, hn2, hn3⟩ := ntbs_bounds f fp1 pos1 size s2 fp2 pos2 hn
                  exact ih _ _ _ _ _ (by omega)
            · cases hv : parse_uleb128 f fp1 pos1 size with
              | none => simp
              | some t2 =>
                obtain ⟨v, fp2, pos2⟩ := t2
                simp only
                obtain ⟨hv1, hv2, hv3, hv4⟩ := uleb_bounds f fp1 pos1 size v fp2 pos2 hv
                exact ih _ _ _ _ _ (by omega)
    · simp

theorem dispLoop_ro_frame (fuel : Nat) :
    ∀ (f g : List Nat) (fp pos size : Nat) (reps : List Report)
      (fp1 pos1 : Nat),
      dispLoop fuel f fp pos size (-1) = .ok (f, reps, fp1, pos1) →
      (∀ i, fp ≤ i → i < fp1 → g.get? i = f.get? i) →
      dispLoop fuel g fp pos size (-1) = .ok (g, reps, fp1, pos1) := by
  induction fuel with
  | zero =>
    intro f g fp pos size reps fp1 pos1 h _
    exact absurd h (by simp [dispLoop])
  | succ fuel ih =>
    intro f g fp pos size reps fp1 pos1 h hag
    unfold dispLoop at h ⊢
    split at h
    · rename_i hps
      rw [if_pos hps]
      cases hu : parse_uleb128 f fp pos size with
      | none => rw [hu] at h; exact absurd h (by simp)
      | some t =>
        obtain ⟨attr, fpa, posa⟩ := t
        rw [hu] at h
        simp only at h
        obtain ⟨hu1, hu2, hu3, hu4⟩ := uleb_bounds f fp pos size attr fpa posa hu
        split at h
        · rename_i hstr
          cases hn : parse_ntbs f fpa posa size with
          | none => rw [hn] at h; exact absurd h (by simp)
          | some t2 =>
            obtain ⟨s2, fpb, posb⟩ := t2
            rw [hn] at h
            simp only at h
            obtain ⟨hn1, hn2, hn3⟩ := ntbs_bounds f fpa posa size s2 fpb posb hn
            obtain ⟨m1, m2⟩ := dispLoop_mono fuel _ _ _ _ _ _ _ _ _ h
            rw [uleb_frame f g fp pos size attr fpa posa hu
              (fun i hi1 hi2 => hag i hi1 (by omega))]
            simp only
            rw [if_pos hstr]
            rw [ntbs_frame f g fpa posa size s2 fpb posb hn
              (fun i hi1 hi2 => hag i (by omega) (by omega))]
            simp only
            exact ih _ _ _ _ _ _ _ _ h (fun i hi1 hi2 => hag i (by omega) hi2)
        · rename_i hstr
          split at h
          · rename_i h18
            cases hv : parse_uleb128 f fpa posa size with
            | none => rw [hv] at h; exact absurd h (by simp)
            | some t2 =>
              obtain ⟨v, fpb, posb⟩ := t2
              rw [hv] at h
              simp only at h
              obtain ⟨hv1, hv2, hv3, hv4⟩ := uleb_bounds f fpa posa size v fpb posb hv
              rw [if_neg (by omega : ¬ (0 : Int) ≤ -1)] at h
              obtain ⟨rs, hreps, hrec⟩ := consReport_ok _ _ _ _ _ _ h
              obtain ⟨m1, m2⟩ := dispLoop_mono fuel _ _ _ _ _ _ _ _ _ hrec
              rw [uleb_frame f g fp pos size attr fpa posa hu
                (fun i hi1 hi2 => hag i hi1 (by omega))]
              simp only
              rw [if_neg hstr, if_pos h18]
              rw [uleb_frame f g fpa posa size v fpb posb hv
                (fun i hi1 hi2 => hag i (by omega) (by omega))]
              simp only
              rw [if_neg (by omega : ¬ (0 : Int) ≤ -1)]
              rw [ih _ _ _ _ _ _ _ _ hrec (fun i hi1 hi2 => hag i (by omega) hi2)]
              rw [hreps]
              rfl
          · rename_i h18
            split at h
            · rename_i h32
              split at h
              · rename_i heven
                cases hv : parse_uleb128 f fpa posa size with
                | none => rw [hv] at h; exact absurd h (by simp)
                | some t2 =>
                  obtain ⟨v, fpb, posb⟩ := t2
                  rw [hv] at h
                  simp only at h
                  obtain ⟨hv1, hv2, hv3, hv4⟩ := uleb_bounds f fpa posa size v fpb posb hv
                  obtain ⟨m1, m2⟩ := dispLoop_mono fuel _ _ _ _ _ _ _ _ _ h
                  rw [uleb_frame f g fp pos size attr fpa posa hu
                    (fun i hi1 hi2 => hag i hi1 (by omega))]
                  simp only
                  rw [if_neg hstr, if_neg h18, if_pos h32, if_pos heven]
                  rw [uleb_frame f g fpa posa size v fpb posb hv
                    (fun i hi1 hi2 => hag i (by omega) (by omega))]
                  simp only
                  exact ih _ _ _ _ _ _ _ _ h (fun i hi1 hi2 => hag i (by omega) hi2)
              · rename_i heven
                cases hn : parse_ntbs f fpa posa size with
                | none => rw [hn] at h; exact absurd h (by simp)
                | some t2 =>
                  obtain ⟨s2, fpb, posb⟩ := t2
                  rw [hn] at h
                  simp only at h
                  obtain ⟨hn1, hn2, hn3⟩ := ntbs_bounds f fpa posa size s2 fpb posb hn
                  obtain ⟨m1, m2⟩ := dispLoop_mono fuel _ _ _ _ _ _ _ _ _ h
                  rw [uleb_frame f g fp pos size attr fpa posa hu
                    (fun i hi1 hi2 => hag i hi1 (by omega))]
                  simp only
                  rw [if_neg hstr, if_neg h18, if_pos h32, if_neg heven]
                  rw [ntbs_frame f g fpa posa size s2 fpb posb hn
                    (fun i hi1 hi2 => hag i (by omega) (by omega))]
                  simp only
                  exact ih _ _ _ _ _ _ _ _ h (fun i hi1 hi2 => hag i (by omega) hi2)
            · rename_i h32
              cases hv : parse_uleb128 f fpa posa size with
              | none => rw [hv] at h; exact absurd h (by simp)
              | some t2 =>
                obtain ⟨v, fpb, posb⟩ := t2
                rw [hv] at h
                simp only at h
                obtain ⟨hv1, hv2, hv3, hv4⟩ := uleb_bounds f fpa posa size v fpb posb hv
                obtain ⟨m1, m2⟩ := dispLoop_mono fuel _ _ _ _ _ _ _ _ _ h
                rw [uleb_frame f g fp pos size attr fpa posa hu
                  (fun i hi1 hi2 => hag i hi1 (by omega))]
                simp only
                rw [if_neg hstr, if_neg h18, if_neg h32]
                rw [uleb_frame f g fpa posa size v fpb posb hv
                  (fun i hi1 hi2 => hag i (by omega) (by omega))]
                simp only
                exact ih _ _ _ _ _ _ _ _ h (fun i hi1 hi2 => hag i (by omega) hi2)
    · rename_i hps
      rw [if_neg hps]
      simp only [PRes.ok.injEq, Prod.mk.injEq] at h ⊢
      obtain ⟨-, rfl, rfl, rfl⟩ := h
      simp

theorem dispLoop_noreport_w (fuel : Nat) :
    ∀ (f : List Nat) (fp pos size : Nat) (w : Int) (fp1 pos1 : Nat),
      dispLoop fuel f fp pos size (-1) = .ok (f, [], fp1, pos1) →
      dispLoop fuel f fp pos size w = .ok (f, [], fp1, pos1) := by
  induction fuel with
  | zero =>
    intro f fp pos size w fp1 pos1 h
    exact absurd h (by simp [dispLoop])
  | succ fuel ih =>
    intro f fp pos size w fp1 pos1 h
    unfold dispLoop at h ⊢
    split at h
    · rename_i hps
      rw [if_pos hps]
      cases hu : parse_uleb128 f fp pos size with
      | none =>
          try rw [hu] at h
          exact absurd h (by simp)
      | some t =>
        obtain ⟨attr, fpa, posa⟩ := t
        try rw [hu] at h
        simp only at h ⊢
        split at h
        · rename_i hstr
          rw [if_pos hstr]
          cases hn : parse_ntbs f fpa posa size with
          | none =>
              try rw [hn] at h
              exact absurd h (by simp)
          | some t2 =>
            obtain ⟨s2, fpb, posb⟩ := t2
            try rw [hn] at h
            simp only at h ⊢
            exact ih _ _ _ _ _ _ _ h
        · rename_i hstr
          rw [if_neg hstr]
          split at h
          · rename_i h18
            rw [if_pos h18]
            cases hv : parse_uleb128 f fpa posa size with
            | none =>
                try rw [hv] at h
                exact absurd h (by simp)
            | some t2 =>
              obtain ⟨v, fpb, posb⟩ := t2
              try rw [hv] at h
              simp only at h
              rw [if_neg (by omega : ¬ (0 : Int) ≤ -1)] at h
              obtain ⟨rs, hreps, hrec⟩ := consReport_ok _ _ _ _ _ _ h
              exact absurd hreps.symm (by simp)
          · rename_i h18
            rw [if_neg h18]
            split at h
            · rename_i h32
              rw [if_pos h32]
              split at h
              · rename_i heven
                rw [if_pos heven]
                cases hv : parse_uleb128 f fpa posa size with
                | none =>
                    try rw [hv] at h
                    exact absurd h (by simp)
                | some t2 =>
                  obtain ⟨v, fpb, posb⟩ := t2
                  try rw [hv] at h
                  simp only at h ⊢
                  exact ih _ _ _ _ _ _ _ h
              · rename_i heven
                rw [if_neg heven]
                cases hn : parse_ntbs f fpa posa size with
                | none =>
                    try rw [hn] at h
                    exact absurd h (by simp)
                | some t2 =>
                  obtain ⟨s2, fpb, posb⟩ := t2
                  try rw [hn] at h
                  simp only at h ⊢
                  exact ih _ _ _ _ _ _ _ h
            · rename_i h32
              rw [if_neg h32]
              cases hv : parse_uleb128 f fpa posa size with
              | none =>
                  try rw [hv] at h
                  exact absurd h (by simp)
              | some t2 =>
                obtain ⟨v, fpb, posb⟩ := t2
                try rw [hv] at h
                simp only at h ⊢
                exact ih _ _ _ _ _ _ _ h
    · rename_i hps
      rw [if_neg hps]
      exact h

theorem set_get_ne (f : List Nat) (o c : Nat) :
    ∀ i, i ≠ o → (f.set o c).get? i = f.get? i := by
  intro i hi
  simp only [List.get?_eq_getElem?]
  exact List.getElem?_set_ne (fun he => hi he.symm)

theorem dispLoop_roundtrip (fuel : Nat) :
    ∀ (f : List Nat) (fp pos size : Nat) (w : Int) (o v fp1 pos1 : Nat),
      (∀ b ∈ f, b < 256) →
      dispLoop fuel f fp pos size (-1) =
        .ok (f, [⟨o, 1, v, false, false⟩], fp1, pos1) →
      0 ≤ w → w ≤ 127 →
      fp ≤ o ∧ f.get? o = some v ∧ v < 128 ∧
      dispLoop fuel f fp pos size w =
        .ok (f.set o w.toNat, [⟨o, 1, v, false, true⟩], fp1, pos1) ∧
      dispLoop fuel (f.set o w.toNat) fp pos size (-1) =
        .ok (f.set o w.toNat, [⟨o, 1, w.toNat, false, false⟩], fp1, pos1) := by
  induction fuel with
  | zero =>
    intro f fp pos size w o v fp1 pos1 hbytes h hw0 hw1
    exact absurd h (by simp [dispLoop])
  | succ fuel ih =>
    intro f fp pos size w o v fp1 pos1 hbytes h hw0 hw1
    unfold dispLoop at h
    split at h
    · rename_i hps
      cases hu : parse_uleb128 f fp pos size with
      | none =>
        try rw [hu] at h
        exact absurd h (by simp)
      | some t =>
        obtain ⟨attr, fpa, posa⟩ := t
        try rw [hu] at h
        simp only at h
        obtain ⟨hu1, hu2, hu3, hu4⟩ := uleb_bounds f fp pos size attr fpa posa hu
        split at h
        · rename_i hstr
          cases hn : parse_ntbs f fpa posa size with
          | none =>
            try rw [hn] at h
            exact absurd h (by simp)
          | some t2 =>
            obtain ⟨s2, fpb, posb⟩ := t2
            try rw [hn] at h
            simp only at h
            obtain ⟨hn1, hn2, hn3⟩ := ntbs_bounds f fpa posa size s2 fpb posb hn
            obtain ⟨io, igv, iv, ipatch, iredec⟩ :=
              ih f fpb posb size w o v fp1 pos1 hbytes h hw0 hw1
            have hagset : ∀ i, i ≠ o → (f.set o w.toNat).get? i = f.get? i :=
              set_get_ne f o w.toNat
            refine ⟨by omega, igv, iv, ?_, ?_⟩
            · unfold dispLoop
              rw [if_pos hps, hu]
              simp only
              rw [if_pos hstr, hn]
              simp only
              exact ipatch
            · unfold dispLoop
              rw [if_pos hps]
              rw [uleb_frame f (f.set o w.toNat) fp pos size attr fpa posa hu
                (fun i hi1 hi2 => hagset i (by omega))]
              simp only
              rw [if_pos hstr]
              rw [ntbs_frame f (f.set o w.toNat) fpa posa size s2 fpb posb hn
                (fun i hi1 hi2 => hagset i (by omega))]
              simp only
              exact iredec
        · rename_i hstr
          split at h
          · rename_i h18
            cases hv : parse_uleb128 f fpa posa size with
            | none =>
              try rw [hv] at h
              exact absurd h (by simp)
            | some t2 =>
              obtain ⟨v0, fpv, posv⟩ := t2
              try rw [hv] at h
              simp only at h
              rw [if_neg (by omega : ¬ (0 : Int) ≤ -1)] at h
              obtain ⟨rs, hreps, hrec⟩ := consReport_ok _ _ _ _ _ _ h
              simp only [List.cons.injEq, Report.mk.injEq] at hreps
              obtain ⟨⟨ho, hwd, hv0, -, -⟩, hrs⟩ := hreps
              subst hrs
              obtain ⟨hv1, hv2, hv3, hv4⟩ := uleb_bounds f fpa posa size v0 fpv posv hv
              have hposv : posv = posa + 1 := by omega
              subst hposv
              obtain ⟨hpsa, hfpv, b, hgb, hbterm, hbval⟩ :=
                uleb_one_byte f fpa posa size v0 fpv hv
              have hb256 : b < 256 := hbytes b (List.get?_mem hgb)
              have hb128 : b < 128 := lt_128_of_land128_zero b hb256 hbterm
              have hveqb : v0 = b := by
                rw [hbval, land127_eq_mod b hb256, Nat.mod_eq_of_lt hb128]
              have hoa : o = fpa := by omega
              have hvlt : v < 128 := by omega
              have holen : o < f.length := by
                rw [hoa]
                obtain ⟨hlt, -⟩ := List.get?_eq_some.mp hgb
                exact hlt
              have hgvo : f.get? o = some v := by
                rw [hoa, hgb, hv0, hveqb]
              have hagset : ∀ i, i ≠ o → (f.set o w.toNat).get? i = f.get? i :=
                set_get_ne f o w.toNat
              have hwnat : w.toNat < 128 := by omega
              have hgseto : (f.set o w.toNat).get? o = some w.toNat := by
                simp only [List.get?_eq_getElem?]
                exact List.getElem?_set_self holen
              have htail0 : dispLoop fuel (f.set o w.toNat) fpv (posa + 1) size (-1) =
                  .ok (f.set o w.toNat, [], fp1, pos1) :=
                dispLoop_ro_frame fuel f (f.set o w.toNat) fpv (posa + 1) size [] fp1 pos1
                  hrec (fun i hi1 hi2 => hagset i (by omega))
              have htailw : dispLoop fuel (f.set o w.toNat) fpv (posa + 1) size w =
                  .ok (f.set o w.toNat, [], fp1, pos1) :=
                dispLoop_noreport_w fuel (f.set o w.toNat) fpv (posa + 1) size w fp1 pos1 htail0
              have hwr : fwrite f (fpv - 1) (byteOfChar w) = some (f.set o w.toNat) := by
                unfold fwrite
                rw [show fpv - 1 = o by omega]
                rw [if_pos holen, byteOfChar_eq_toNat w hw0 hw1]
              refine ⟨by omega, hgvo, hvlt, ?_, ?_⟩
              · unfold dispLoop
                rw [if_pos hps, hu]
                simp only
                rw [if_neg hstr, if_pos h18, hv]
                simp only
                rw [if_pos hw0, if_neg (by omega : ¬ fpv = 0), hwr]
                simp only
                rw [htailw]
                simp only [consReport]
                have hd : decide (127 < v0) = false := by
                  rw [decide_eq_false_iff_not]
                  omega
                rw [hd]
                rw [show fpv - 1 = o by omega, show posa + 1 - posa = 1 by omega, ← hv0]
              · unfold dispLoop
                rw [if_pos hps]
                rw [uleb_frame f (f.set o w.toNat) fp pos size attr fpa posa hu
                  (fun i hi1 hi2 => hagset i (by omega))]
                simp only
                rw [if_neg hstr, if_pos h18]
                rw [uleb_single (f.set o w.toNat) fpa posa size w.toNat
                  (hoa ▸ hgseto) hwnat hpsa]
                simp only
                rw [if_neg (by omega : ¬ (0 : Int) ≤ -1)]
                rw [show fpa + 1 = fpv by omega]
                rw [htail0]
                simp only [consReport]
                rw [show fpv - 1 = o by omega, show posa + 1 - posa = 1 by omega]
          · rename_i h18
            split at h
            · rename_i h32
              split at h
              · rename_i heven
                cases hv : parse_uleb128 f fpa posa size with
                | none =>
                  try rw [hv] at h
                  exact absurd h (by simp)
                | some t2 =>
                  obtain ⟨v0, fpb, posb⟩ := t2
                  try rw [hv] at h
                  simp only at h
                  obtain ⟨hv1, hv2, hv3, hv4⟩ := uleb_bounds f fpa posa size v0 fpb posb hv
                  obtain ⟨io, igv, iv, ipatch, iredec⟩ :=
                    ih f fpb posb size w o v fp1 pos1 hbytes h hw0 hw1
                  have hagset : ∀ i, i ≠ o → (f.set o w.toNat).get? i = f.get? i :=
                    set_get_ne f o w.toNat
                  refine ⟨by omega, igv, iv, ?_, ?_⟩
                  · unfold dispLoop
                    rw [if_pos hps, hu]
                    simp only
                    rw [if_neg hstr, if_neg h18, if_pos h32, if_pos heven, hv]
                    simp only
                    exact ipatch
                  · unfold dispLoop
                    rw [if_pos hps]
                    rw [uleb_frame f (f.set o w.toNat) fp pos size attr fpa posa hu
                      (fun i hi1 hi2 => hagset i (by omega))]
                    simp only
                    rw [if_neg hstr, if_neg h18, if_pos h32, if_pos heven]
                    rw [uleb_frame f (f.set o w.toNat) fpa posa size v0 fpb posb hv
                      (fun i hi1 hi2 => hagset i (by omega))]
                    simp only
                    exact iredec
              · rename_i heven
                cases hn : parse_ntbs f fpa posa size with
                | none =>
                  try rw [hn] at h
                  exact absurd h (by simp)
                | some t2 =>
                  obtain ⟨s2, fpb, posb⟩ := t2
                  try rw [hn] at h
                  simp only at h
                  obtain ⟨hn1, hn2, hn3⟩ := ntbs_bounds f fpa posa size s2 fpb posb hn
                  obtain ⟨io, igv, iv, ipatch, iredec⟩ :=
                    ih f fpb posb size w o v fp1 pos1 hbytes h hw0 hw1
                  have hagset : ∀ i, i ≠ o → (f.set o w.toNat).get? i = f.get? i :=
                    set_get_ne f o w.toNat
                  refine ⟨by omega, igv, iv, ?_, ?_⟩
                  · unfold dispLoop
                    rw [if_pos hps, hu]
                    simp only
                    rw [if_neg hstr, if_neg h18, if_pos h32, if_neg heven, hn]
                    simp only
                    exact ipatch
                  · unfold dispLoop
                    rw [if_pos hps]
                    rw [uleb_frame f (f.set o w.toNat) fp pos size attr fpa posa hu
                      (fun i hi1 hi2 => hagset i (by omega))]
                    simp only
                    rw [if_neg hstr, if_neg h18, if_pos h32, if_neg heven]
                    rw [ntbs_frame f (f.set o w.toNat) fpa posa size s2 fpb posb hn
                      (fun i hi1 hi2 => hagset i (by omega))]
                    simp only
                    exact iredec
            · rename_i h32
              cases hv : parse_uleb128 f fpa posa size with
              | none =>
                try rw [hv] at h
                exact absurd h (by simp)
              | some t2 =>
                obtain ⟨v0, fpb, posb⟩ := t2
                try rw [hv] at h
                simp only at h
                obtain ⟨hv1, hv2, hv3, hv4⟩ := uleb_bounds f fpa posa size v0 fpb posb hv
                obtain ⟨io, igv, iv, ipatch, iredec⟩ :=
                  ih f fpb posb size w o v fp1 pos1 hbytes h hw0 hw1
                have hagset : ∀ i, i ≠ o → (f.set o w.toNat).get? i = f.get? i :=
                  set_get_ne f o w.toNat
                refine ⟨by omega, igv, iv, ?_, ?_⟩
                · unfold dispLoop
                  rw [if_pos hps, hu]
                  simp only
                  rw [if_neg hstr, if_neg h18, if_neg h32, hv]
                  simp only
                  exact ipatch
                · unfold dispLoop
                  rw [if_pos hps]
                  rw [uleb_frame f (f.set o w.toNat) fp pos size attr fpa posa hu
                    (fun i hi1 hi2 => hagset i (by omega))]
                  simp only
                  rw [if_neg hstr, if_neg h18, if_neg h32]
                  rw [uleb_frame f (f.set o w.toNat) fpa posa size v0 fpb posb hv
                    (fun i hi1 hi2 => hagset i (by omega))]
                  simp only
                  exact iredec
    · exact absurd h (by simp)

/-! ### Lemmas for the aeabi-subsection wrapper -/

theorem subsec_mono (f : List Nat) (fp pos size : Nat) (w : Int)
    (g : List Nat) (reps : List Report) (fp' pos' : Nat)
    (h : parse_eabi_attr_aeabi_subsection f fp pos size w =
      .ok (g, reps, fp', pos')) :
    pos ≤ pos' ∧ fp ≤ fp' := by
  unfold parse_eabi_attr_aeabi_subsection at h
  split at h
  · exact absurd h (by simp)
  · cases hg : f.get? fp with
    | none =>
      try rw [hg] at h
      exact absurd h (by simp)
    | some tag =>
      try rw [hg] at h
      simp only at h
      split at h
      · cases hs : skipIds (size + 1) f (fp + 1) (pos + 1) size with
        | err =>
          try rw [hs] at h
          exact absurd h (by simp)
        | more =>
          try rw [hs] at h
          exact absurd h (by simp)
        | ok t =>
          obtain ⟨fp2, pos2⟩ := t
          try rw [hs] at h
          simp only at h
          obtain ⟨hs1, hs2⟩ := skipIds_bounds (size + 1) f (fp + 1) (pos + 1) size fp2 pos2 hs
          obtain ⟨m1, m2⟩ := dispLoop_mono (size + 1) _ _ _ _ _ _ _ _ _ h
          exact ⟨by omega, by omega⟩
      · obtain ⟨m1, m2⟩ := dispLoop_mono (size + 1) _ _ _ _ _ _ _ _ _ h
        exact ⟨by omega, by omega⟩

theorem subsec_no_more (f : List Nat) (fp pos size : Nat) (w : Int) :
    parse_eabi_attr_aeabi_subsection f fp pos size w ≠ .more := by
  unfold parse_eabi_attr_aeabi_subsection
  split
  · simp
  · cases hg : f.get? fp with
    | none => simp
    | some tag =>
      simp only
      split
      · cases hs : skipIds (size + 1) f (fp + 1) (pos + 1) size with
        | err => simp
        | more => exact absurd hs (skipIds_no_more (size + 1) f (fp + 1) (pos + 1) size (by omega))
        | ok t =>
          obtain ⟨fp2, pos2⟩ := t
          simp only
          exact dispLoop_no_more (size + 1) f fp2 pos2 size w (by omega)
      · exact dispLoop_no_more (size + 1) f (fp + 1) (pos + 1) size w (by omega)

theorem subsec_roundtrip (f : List Nat) (fp pos size : Nat) (w : Int)
    (o v fp1 pos1 : Nat)
    (hbytes : ∀ b ∈ f, b < 256)
    (hro : parse_eabi_attr_aeabi_subsection f fp pos size (-1) =
      .ok (f, [⟨o, 1, v, false, false⟩], fp1, pos1))
    (hw0 : 0 ≤ w) (hw1 : w ≤ 127) :
    f.get? o = some v ∧ v < 128 ∧
    parse_eabi_attr_aeabi_subsection f fp pos size w =
      .ok (f.set o w.toNat, [⟨o, 1, v, false, true⟩], fp1, pos1) ∧
    parse_eabi_attr_aeabi_subsection (f.set o w.toNat) fp pos size (-1) =
      .ok (f.set o w.toNat, [⟨o, 1, w.toNat, false, false⟩], fp1, pos1) := by
  unfold parse_eabi_attr_aeabi_subsection at hro ⊢
  split at hro
  · exact absurd hro (by simp)
  · rename_i hsz
    rw [if_neg hsz]
    cases hg : f.get? fp with
    | none =>
      try rw [hg] at hro
      exact absurd hro (by simp)
    | some tag =>
      try rw [hg] at hro
      simp only at hro
      split at hro
      · rename_i htag
        cases hs : skipIds (size + 1) f (fp + 1) (pos + 1) size with
        | err =>
          try rw [hs] at hro
          exact absurd hro (by simp)
        | more =>
          try rw [hs] at hro
          exact absurd hro (by simp)
        | ok t =>
          obtain ⟨fp2, pos2⟩ := t
          try rw [hs] at hro
          simp only at hro
          obtain ⟨hs1, hs2⟩ := skipIds_bounds (size + 1) f (fp + 1) (pos + 1) size fp2 pos2 hs
          obtain ⟨io, igv, iv, ipatch, iredec⟩ :=
            dispLoop_roundtrip (size + 1) f fp2 pos2 size w o v fp1 pos1 hbytes hro hw0 hw1
          have hagset : ∀ i, i ≠ o → (f.set o w.toNat).get? i = f.get? i :=
            set_get_ne f o w.toNat
          refine ⟨igv, iv, ?_, ?_⟩
          · simp only
            rw [if_pos htag]
            try simp only
            exact ipatch
          · rw [if_neg hsz, hagset fp (by omega), hg]
            simp only
            rw [if_pos htag]
            rw [skipIds_frame (size + 1) f (f.set o w.toNat) (fp + 1) (pos + 1) size fp2 pos2 hs
              (fun i hi1 hi2 => hagset i (by omega))]
            simp only
            exact iredec
      · rename_i htag
        obtain ⟨io, igv, iv, ipatch, iredec⟩ :=
          dispLoop_roundtrip (size + 1) f (fp + 1) (pos + 1) size w o v fp1 pos1 hbytes hro hw0 hw1
        have hagset : ∀ i, i ≠ o → (f.set o w.toNat).get? i = f.get? i :=
          set_get_ne f o w.toNat
        refine ⟨igv, iv, ?_, ?_⟩
        · simp only
          rw [if_neg htag]
          exact ipatch
        · rw [if_neg hsz, hagset fp (by omega), hg]
          simp only
          rw [if_neg htag]
          exact iredec

/-! ### Lemmas for the attributes-section walker -/

theorem wstep_progress (f : List Nat) (fp pos size : Nat) (w : Int) :
    wstep f fp pos size w = .err ∨
    ∃ f1 fp1 pos1, wstep f fp pos size w = .ok (f1, fp1, pos1) ∧
      pos + 4 ≤ pos1 := by
  unfold wstep
  split
  · exact Or.inl rfl
  · rename_i hlen4
    cases hr : read4 f fp with
    | none => exact Or.inl rfl
    | some len =>
      simp only
      split
      · exact Or.inl rfl
      · rename_i hbound
        cases hn : parse_ntbs f (fp + 4) 4 len with
        | none => exact Or.inl rfl
        | some t =>
          obtain ⟨name, fpq, sposq⟩ := t
          simp only
          obtain ⟨hn1, hn2, hn3⟩ := ntbs_bounds f (fp + 4) 4 len name fpq sposq hn
          split
          · cases hsub : parse_eabi_attr_aeabi_subsection f fpq sposq len w with
            | err => exact Or.inl rfl
            | more => exact absurd hsub (subsec_no_more f fpq sposq len w)
            | ok t2 =>
              obtain ⟨f2, reps2, fp2, spos2⟩ := t2
              obtain ⟨hm1, hm2⟩ := subsec_mono f fpq sposq len w f2 reps2 fp2 spos2 hsub
              exact Or.inr ⟨f2, fp2, pos + spos2, rfl, by omega⟩
          · rw [if_pos (by omega : (0 : Int) ≤ (fpq : Int) + (len : Int) - (sposq : Int))]
            exact Or.inl rfl

theorem wloop_no_more (fuel : Nat) :
    ∀ (f : List Nat) (fp pos size : Nat) (w : Int),
      size - pos < fuel → wloop fuel f fp pos size w ≠ .more := by
  induction fuel with
  | zero => intro f fp pos size w h; omega
  | succ fuel ih =>
    intro f fp pos size w hfuel
    unfold wloop
    split
    · rename_i hps
      rcases wstep_progress f fp pos size w with hstep | ⟨f1, fp1, pos1, hstep, hadv⟩
      · rw [hstep]
        simp
      · rw [hstep]
        simp only
        exact ih f1 fp1 pos1 size w (by omega)
    · simp

theorem read4_append (pre body : List Nat) (fp len : Nat)
    (hlen : fp + 4 ≤ pre.length) (h : read4 pre fp = some len) :
    read4 (pre ++ body) fp = some len := by
  unfold read4 at h ⊢
  rw [List.get?_append (by omega), List.get?_append (by omega),
    List.get?_append (by omega), List.get?_append (by omega)]
  exact h

theorem ulebAux_truncated (gas : Nat) :
    ∀ (f : List Nat) (fp pos size shift acc : Nat),
      pos < size → size - pos ≤ gas →
      (∀ i b, pos + i < size → f.get? (fp + i) = some b → b &&& 128 ≠ 0) →
      ulebAux f gas fp pos size shift acc = none := by
  induction gas with
  | zero => intro f fp pos size shift acc h1 h2 _; omega
  | succ gas ih =>
    intro f fp pos size shift acc hps hgas hcont
    unfold ulebAux
    rw [if_pos hps]
    cases hb : f.get? fp with
    | none => rfl
    | some b =>
      simp only
      have hb0 : b &&& 128 ≠ 0 :=
        hcont 0 b (by omega) (by rw [Nat.add_zero]; exact hb)
      rw [if_neg hb0]
      by_cases hend : size ≤ pos + 1
      · rw [if_pos hend]
      · rw [if_neg hend]
        exact ih f (fp + 1) (pos + 1) size (shift + 7) _ (by omega) (by omega)
          (fun i b' hi hg =>
            hcont (i + 1) b' (by omega)
              (by rw [show fp + (i + 1) = fp + 1 + i by omega]; exact hg))

theorem ulebSpec_pos (bs : List Nat) (V : Nat) (h : ulebSpec bs = some V) :
    1 ≤ bs.length := by
  cases bs with
  | nil => simp [ulebSpec] at h
  | cons b rest => simp

theorem ulebAux_spec (bs : List Nat) :
    ∀ (V : Nat) (gas : Nat) (f : List Nat) (fp pos size shift acc : Nat),
      ulebSpec bs = some V →
      (∀ i, i < bs.length → f.get? (fp + i) = bs.get? i) →
      pos + bs.length ≤ size →
      size - pos ≤ gas →
      acc < 2 ^ shift →
      V * 2 ^ shift < 2 ^ 31 →
      ulebAux f gas fp pos size shift acc =
        some (acc + V * 2 ^ shift, fp + bs.length, pos + bs.length) := by
  induction bs with
  | nil =>
    intro V gas f fp pos size shift acc hspec _ _ _ _ _
    simp [ulebSpec] at hspec
  | cons b rest ih =>
    intro V gas f fp pos size shift acc hspec hbytes hbound hgas hacc hV
    cases rest with
    | nil =>
      simp only [ulebSpec] at hspec
      split at hspec
      · rename_i hb
        simp only [Option.some.injEq] at hspec
        subst hspec
        have hps : pos < size := by simp at hbound; omega
        obtain ⟨g, hg⟩ : ∃ g, gas = g + 1 := ⟨gas - 1, by omega⟩
        subst hg
        unfold ulebAux
        rw [if_pos hps]
        have hgb : f.get? fp = some b := by
          have := hbytes 0 (by simp)
          rw [Nat.add_zero] at this
          exact this
        rw [hgb]
        simp only
        have hble : b * 2 ^ shift < 2 ^ 31 := hV
        have h3132 : (2 : Nat) ^ 31 < 2 ^ 32 := by norm_num
        have hc : ulebContrib b shift = b * 2 ^ shift := by
          unfold ulebContrib
          rw [Nat.shiftLeft_eq, land127_eq_mod b (by omega), Nat.mod_eq_of_lt hb]
          rw [Nat.mod_eq_of_lt (by omega)]
          rw [if_pos (by omega)]
        rw [if_pos (land128_zero b hb), hc, lor_low_eq_add acc b shift hacc]
        simp
      · simp at hspec
    | cons r rs =>
      have hlen2 : 2 ≤ (b :: r :: rs).length := by simp
      simp only [ulebSpec] at hspec
      split at hspec
      · rename_i hb
        obtain ⟨hb1, hb2⟩ := hb
        rw [Option.map_eq_some'] at hspec
        obtain ⟨Vr, hVr, hVeq⟩ := hspec
        have hps : pos < size := by simp at hbound ⊢; omega
        have hps1 : pos + 1 < size := by simp at hbound ⊢; omega
        obtain ⟨g, hg⟩ : ∃ g, gas = g + 1 := ⟨gas - 1, by omega⟩
        subst hg
        unfold ulebAux
        rw [if_pos hps]
        have hgb : f.get? fp = some b := by
          have := hbytes 0 (by simp)
          rw [Nat.add_zero] at this
          exact this
        rw [hgb]
        simp only
        have hmodle : b % 128 ≤ V := by omega
        have hble : (b % 128) * 2 ^ shift < 2 ^ 31 := by
          calc (b % 128) * 2 ^ shift ≤ V * 2 ^ shift :=
                Nat.mul_le_mul_right _ hmodle
            _ < 2 ^ 31 := hV
        have h3132 : (2 : Nat) ^ 31 < 2 ^ 32 := by norm_num
        have hc : ulebContrib b shift = (b % 128) * 2 ^ shift := by
          unfold ulebContrib
          rw [Nat.shiftLeft_eq, land127_eq_mod b (by omega)]
          rw [Nat.mod_eq_of_lt (by omega)]
          rw [if_pos (by omega)]
        rw [if_neg (land128_ne_zero b hb1 hb2), if_neg (by omega : ¬ size ≤ pos + 1)]
        rw [hc, lor_low_eq_add acc (b % 128) shift hacc]
        have hpow : (2 : Nat) ^ (shift + 7) = 128 * 2 ^ shift := by
          rw [pow_add]
          ring
        have haccx : acc + (b % 128) * 2 ^ shift < 2 ^ (shift + 7) := by
          have hmul : (b % 128) * 2 ^ shift ≤ 127 * 2 ^ shift :=
            Nat.mul_le_mul_right _ (by omega)
          have h128 : 127 * 2 ^ shift + 2 ^ shift = 128 * 2 ^ shift := by ring
          omega
        have hVrlt : Vr * 2 ^ (shift + 7) < 2 ^ 31 := by
          rw [hpow, ← Nat.mul_assoc]
          calc Vr * 128 * 2 ^ shift = (128 * Vr) * 2 ^ shift := by ring
            _ ≤ V * 2 ^ shift := Nat.mul_le_mul_right _ (by omega)
            _ < 2 ^ 31 := hV
        have hrec := ih Vr g f (fp + 1) (pos + 1) size (shift + 7)
          (acc + (b % 128) * 2 ^ shift) hVr
          (fun i hi => by
            have := hbytes (i + 1) (by simpa using Nat.succ_lt_succ hi)
            rw [show fp + (i + 1) = fp + 1 + i by omega] at this
            simpa using this)
          (by simp at hbound ⊢; omega) (by omega) haccx hVrlt
        rw [hrec]
        simp only [Option.some.injEq, Prod.mk.injEq]
        refine ⟨?_, by simp; omega, by simp; omega⟩
        rw [← hVeq, hpow]
        ring
      · simp at hspec

/-! ### Claim theorems -/

/-- C1: the claim says that when tag 18 is decoded with a value above 0x7f
while a patch is requested, the patch is refused, no write is performed and
the file is unchanged.  The code (src lines 161-176) prints the refusal but
the `if` has no `else`, so it falls through to the seek-back and the
one-byte write.  At the concrete subsection below (indicator 1, tag 18,
value `0x81 0x01` = 129, patch value 0) the run reports the refusal
(`refused = true`), still performs the write (`wrote = true`), and the
resulting file differs from the original: the last byte of the old
encoding has been overwritten. -/
theorem C1_refusal_still_writes :
    parse_eabi_attr_aeabi_subsection [1, 18, 129, 1] 0 5 9 0 =
      .ok ([1, 18, 129, 0], [⟨3, 2, 129, true, true⟩], 4, 9) ∧
    [1, 18, 129, 0] ≠ [1, 18, 129, 1] := by decide

/-- C2: the claim says a subsection with an unknown vendor name is skipped
and the walk continues successfully.  The code (src line 265) tests
`lseek(...) != -1`, treating a successful relative seek as the error case,
so the walk always fails on the first non-"aeabi" subsection.  Concrete
section: version 'A', one subsection of length 9 with vendor name "foo";
the walker returns the error result instead of continuing. -/
theorem C2_unknown_subsection_walk_fails :
    parse_eabi_attr_section [65, 9, 0, 0, 0, 102, 111, 111, 0, 170] 0 10 (-1) =
      (false, .err) := by decide

/-- C3: the claim says the subsection cursor never exceeds the declared
subsection size, in particular for the indicator-tag byte.  The code
(src line 112) guards the indicator read with `sh_size < 1` instead of
`*pos >= sh_size`, so with the cursor already at the subsection end
(`pos = sh_size = 10`) the dispatcher still reads and consumes the
indicator byte, leaving the cursor at 11 > 10. -/
theorem C3_indicator_read_past_boundary :
    parse_eabi_attr_aeabi_subsection [7] 0 10 10 (-1) =
      .ok ([7], [], 1, 11) ∧ 10 < 11 := by decide

/-- C4 counterexample: the claim says every negative replacement value
makes the program fail before opening the file.  `main` only checks
`wchar_size > 0x7f` (src line 396), so -5 is accepted and the program
proceeds (the value is passed on cast to `char`). -/
theorem C4_negative_value_accepted :
    wcharArgCheck (-5) = some (-5) ∧ wcharArgCheck (-5) ≠ none := by decide

/-- C4 (amended): the replacement-value check fails exactly for integers
greater than 0x7f; every integer at most 0x7f — including every negative
value — is accepted and passed on as its signed-char truncation. -/
theorem C4_wchar_arg_range :
    (∀ n : Int, wcharArgCheck n = none ↔ 0x7f < n) ∧
    (∀ n : Int, n ≤ 0x7f → wcharArgCheck n = some (charCast n)) := by
  constructor
  · intro n
    unfold wcharArgCheck
    split <;> simp_all
  · intro n h
    unfold wcharArgCheck
    rw [if_neg (by omega)]

/-- Witness for C4: the negative value -7 is accepted and truncated. -/
theorem C4_wchar_arg_range_witness :
    wcharArgCheck (-7) = some (charCast (-7)) :=
  C4_wchar_arg_range.2 (-7) (by decide)

/-- C5 counterexample: the claim says the reader reports a truncation
error even when the cursor already equals the boundary on entry and never
returns success without a terminator byte.  With `pos = size = 3` the C
loop body never runs and the function returns 0 (success) with value 0
and nothing consumed. -/
theorem C5_boundary_entry_success :
    parse_uleb128 [5] 0 3 3 = some (0, 0, 3) := by decide

/-- C5 (amended): when the cursor is already at or past the boundary on
entry, the ULEB128 reader returns success with value 0 and consumes
nothing; when the cursor is strictly inside and every in-bounds byte has
the continuation bit set (or a read fails) it reports an error; and on
success it never advances the cursor past the boundary, the file offset
advancing in lock-step with the position. -/
theorem C5_uleb_truncation :
    (∀ (f : List Nat) (fp pos size : Nat), size ≤ pos →
      parse_uleb128 f fp pos size = some (0, fp, pos)) ∧
    (∀ (f : List Nat) (fp pos size : Nat), pos < size →
      (∀ i b, pos + i < size → f.get? (fp + i) = some b → b &&& 128 ≠ 0) →
      parse_uleb128 f fp pos size = none) ∧
    (∀ (f : List Nat) (fp pos size v fp' pos' : Nat),
      parse_uleb128 f fp pos size = some (v, fp', pos') →
      pos ≤ pos' ∧ fp' = fp + (pos' - pos) ∧ (pos < size → pos' ≤ size)) := by
  refine ⟨uleb_vacuous, ?_, ?_⟩
  · intro f fp pos size hps hcont
    unfold parse_uleb128
    exact ulebAux_truncated (size - pos) f fp pos size 0 0 hps (Nat.le_refl _) hcont
  · intro f fp pos size v fp' pos' h
    obtain ⟨h1, h2, h3, h4⟩ := uleb_bounds f fp pos size v fp' pos' h
    exact ⟨h1, h2, h3⟩

/-- Witness for C5: the three conjuncts at concrete inputs — boundary
entry, an unterminated two-byte field, and an in-bounds decode. -/
theorem C5_uleb_truncation_witness :
    parse_uleb128 [7] 0 3 3 = some (0, 0, 3) ∧
    parse_uleb128 [128, 128] 0 0 2 = none ∧
    ((0 : Nat) ≤ 2 ∧ (2 : Nat) = 0 + (2 - 0) ∧ ((0 : Nat) < 3 → (2 : Nat) ≤ 3)) :=
  ⟨C5_uleb_truncation.1 [7] 0 3 3 (by decide),
   C5_uleb_truncation.2.1 [128, 128] 0 0 2 (by decide)
     (by
       intro i b hi hg
       have h2 : i < 2 := by omega
       interval_cases i <;> simp_all <;> omega),
   C5_uleb_truncation.2.2 [128, 2] 0 0 3 256 2 2 (by decide)⟩

/-- C6 counterexample: the claim says every valid encoding decodes to the
exact integer.  The C source computes `(byte & 0x7f) << shift` at type
`int` (32 bits): for the five-byte encoding of 2^31 the fifth byte's
contribution overflows, is sign-extended into the 64-bit result, and the
reader returns 18446744071562067968 instead of 2147483648 (while still
consuming 5 bytes). -/
theorem C6_wide_value_misdecoded :
    ulebSpec [128, 128, 128, 128, 8] = some 2147483648 ∧
    parse_uleb128 [128, 128, 128, 128, 8] 0 0 5 =
      some (18446744071562067968, 5, 5) ∧
    (18446744071562067968 : Nat) ≠ 2147483648 := by decide

/-- C6 (amended): for every valid ULEB128 encoding of at most 5 bytes
whose value is below 2^31 — so that every 32-bit intermediate
`(byte & 0x7f) << shift` stays within `int` range — the reader returns the
exact encoded integer and advances cursor and file offset by exactly the
encoding's length (N continuation bytes plus one terminator). -/
theorem C6_uleb_exact (bs : List Nat) (V : Nat) (f : List Nat)
    (fp pos size : Nat)
    (hspec : ulebSpec bs = some V) (hV : V < 2 ^ 31) (hlen : bs.length ≤ 5)
    (hbytes : ∀ i, i < bs.length → f.get? (fp + i) = bs.get? i)
    (hbound : pos + bs.length ≤ size) :
    parse_uleb128 f fp pos size = some (V, fp + bs.length, pos + bs.length) := by
  unfold parse_uleb128
  have h := ulebAux_spec bs V (size - pos) f fp pos size 0 0 hspec hbytes hbound
    (Nat.le_refl _) (by norm_num) (by simpa using hV)
  simpa using h

/-- Witness for C6: the two-byte encoding `0x85 0x02` of 261. -/
theorem C6_uleb_exact_witness :
    parse_uleb128 [133, 2] 0 0 2 = some (261, 2, 2) :=
  C6_uleb_exact [133, 2] 261 [133, 2] 0 0 2 (by decide) (by decide) (by decide)
    (by decide) (by decide)

/-- C7 counterexample: the claim quantifies over every file whose tag 18
decodes to a value at most 0x7f.  The non-canonical two-byte encoding
`0x81 0x00` decodes to 1 ≤ 0x7f, but the patch overwrites only the last
byte of the encoding, so patching to 2 produces `0x81 0x02` and the
re-decode reports 257, not 2. -/
theorem C7_noncanonical_roundtrip_fails :
    parse_eabi_attr_aeabi_subsection [1, 18, 129, 0] 0 5 9 (-1) =
      .ok ([1, 18, 129, 0], [⟨3, 2, 1, false, false⟩], 4, 9) ∧
    parse_eabi_attr_aeabi_subsection [1, 18, 129, 0] 0 5 9 2 =
      .ok ([1, 18, 129, 2], [⟨3, 2, 1, false, true⟩], 4, 9) ∧
    parse_eabi_attr_aeabi_subsection [1, 18, 129, 2] 0 5 9 (-1) =
      .ok ([1, 18, 129, 2], [⟨3, 2, 257, false, false⟩], 4, 9) ∧
    (257 : Nat) ≠ 2 := by decide

/-- C7 (amended): for every aeabi subsection whose read-only decode
reports exactly one tag-18 value `v` taken from a single-byte encoding
(width 1, at file offset `o`), patching to `w` with `0 ≤ w ≤ 0x7f`
overwrites exactly the byte at `o`: the patched run succeeds with the same
final cursor, the file keeps its length, every byte other than the one at
`o` is unchanged, and re-decoding the patched subsection reports `w`. -/
theorem C7_single_byte_roundtrip (f : List Nat) (fp pos size : Nat)
    (w : Int) (o v fp1 pos1 : Nat)
    (hbytes : ∀ b ∈ f, b < 256)
    (hro : parse_eabi_attr_aeabi_subsection f fp pos size (-1) =
      .ok (f, [⟨o, 1, v, false, false⟩], fp1, pos1))
    (hw0 : 0 ≤ w) (hw1 : w ≤ 127) :
    f.get? o = some v ∧ v ≤ 127 ∧
    parse_eabi_attr_aeabi_subsection f fp pos size w =
      .ok (f.set o w.toNat, [⟨o, 1, v, false, true⟩], fp1, pos1) ∧
    (f.set o w.toNat).length = f.length ∧
    (∀ i, i ≠ o → (f.set o w.toNat).get? i = f.get? i) ∧
    parse_eabi_attr_aeabi_subsection (f.set o w.toNat) fp pos size (-1) =
      .ok (f.set o w.toNat, [⟨o, 1, w.toNat, false, false⟩], fp1, pos1) := by
  obtain ⟨h1, h2, h3, h4⟩ :=
    subsec_roundtrip f fp pos size w o v fp1 pos1 hbytes hro hw0 hw1
  exact ⟨h1, by omega, h3, by simp, set_get_ne f o w.toNat, h4⟩

/-- Witness for C7: the subsection `[indicator 1, tag 18, value 4]`
patched to 0, matching the spec's own scenario. -/
theorem C7_single_byte_roundtrip_witness :
    ([1, 18, 4] : List Nat).get? 2 = some 4 ∧ (4 : Nat) ≤ 127 ∧
    parse_eabi_attr_aeabi_subsection [1, 18, 4] 0 5 8 0 =
      .ok (([1, 18, 4] : List Nat).set 2 (0 : Int).toNat,
        [⟨2, 1, 4, false, true⟩], 3, 8) ∧
    (([1, 18, 4] : List Nat).set 2 (0 : Int).toNat).length =
      ([1, 18, 4] : List Nat).length ∧
    (∀ i, i ≠ 2 → (([1, 18, 4] : List Nat).set 2 (0 : Int).toNat).get? i =
      ([1, 18, 4] : List Nat).get? i) ∧
    parse_eabi_attr_aeabi_subsection
        (([1, 18, 4] : List Nat).set 2 (0 : Int).toNat) 0 5 8 (-1) =
      .ok (([1, 18, 4] : List Nat).set 2 (0 : Int).toNat,
        [⟨2, 1, (0 : Int).toNat, false, false⟩], 3, 8) :=
  C7_single_byte_roundtrip [1, 18, 4] 0 5 8 0 2 4 3 8 (by decide) (by decide)
    (by decide) (by decide)

/-- C8: a subsection is rejected before any byte of its body is read when
fewer than 4 bytes remain before the section boundary at the point where
the length field would be read, or when the declared length added to the
current position exceeds the section size.  The second conjunct quantifies
over an arbitrary body following the 4-byte length field, showing the
rejection is independent of the body's contents. -/
theorem C8_subsection_bounds_rejected (f pre body : List Nat)
    (fp pos size len : Nat) (w : Int) (fuel : Nat) :
    (pos < size → size < pos + 4 → wloop (fuel + 1) f fp pos size w = .err) ∧
    (pos < size → pre.length = fp + 4 → read4 pre fp = some len →
      size < pos + len → wloop (fuel + 1) (pre ++ body) fp pos size w = .err) := by
  constructor
  · intro hps h4
    unfold wloop
    rw [if_pos hps]
    unfold wstep
    rw [if_pos h4]
  · intro hps hpre hread hlen
    unfold wloop
    rw [if_pos hps]
    unfold wstep
    by_cases h4 : size < pos + 4
    · rw [if_pos h4]
    · rw [if_neg h4, read4_append pre body fp len (by omega) hread]
      simp only
      rw [if_pos hlen]

/-- Witness for C8: a section of size 6 whose first subsection declares
length 9, exceeding the boundary, and a section of size 3 with fewer than
4 bytes left. -/
theorem C8_subsection_bounds_rejected_witness :
    wloop 1 [0, 0, 0] 0 1 3 (-1) = .err ∧
    wloop 1 ([9, 0, 0, 0] ++ [97, 98]) 0 1 6 (-1) = .err :=
  ⟨(C8_subsection_bounds_rejected [0, 0, 0] [9, 0, 0, 0] [97, 98] 0 1 3 9 (-1) 0).1
      (by decide) (by decide),
   (C8_subsection_bounds_rejected [0, 0, 0] [9, 0, 0, 0] [97, 98] 0 1 6 9 (-1) 0).2
      (by decide) (by decide) (by decide) (by decide)⟩

/-- C9: the attributes-section walker terminates on every input: every
iteration of the subsection loop either returns an error or advances the
outer cursor by at least 4 bytes, and with fuel exceeding the remaining
section span the loop never runs out of fuel. -/
theorem C9_walker_progress_terminates (f : List Nat) (fp pos size : Nat)
    (w : Int) (fuel : Nat) :
    (wstep f fp pos size w = .err ∨
      ∃ f1 fp1 pos1, wstep f fp pos size w = .ok (f1, fp1, pos1) ∧
        pos + 4 ≤ pos1) ∧
    (size - pos < fuel → wloop fuel f fp pos size w ≠ .more) :=
  ⟨wstep_progress f fp pos size w, wloop_no_more fuel f fp pos size w⟩

/-- Witness for C9 at a concrete state. -/
theorem C9_walker_progress_terminates_witness :
    (wstep [] 0 0 0 (-1) = .err ∨
      ∃ f1 fp1 pos1, wstep [] 0 0 0 (-1) = .ok (f1, fp1, pos1) ∧
        0 + 4 ≤ pos1) ∧
    wloop 1 [] 0 0 0 (-1) ≠ .more :=
  ⟨(C9_walker_progress_terminates [] 0 0 0 (-1) 1).1,
   (C9_walker_progress_terminates [] 0 0 0 (-1) 1).2 (by decide)⟩

/-- C10: for a section of declared size 0 the walker records the
"Empty ARM attributes section" message (first component `true`) but does
not abort: it still reads one version byte from the stream — one byte
beyond the empty section's boundary, which is what the hypothesis on the
byte at the current file offset expresses — and when that byte is 'A'
(65) it returns success. -/
theorem C10_empty_section_still_reads_version (f : List Nat) (fp : Nat)
    (w : Int) (h : f.get? fp = some 65) :
    parse_eabi_attr_section f fp 0 w = (true, .ok (f, fp + 1, 1)) := by
  unfold parse_eabi_attr_section
  rw [h]
  simp [wloop]

/-- Witness for C10: a one-byte file holding just 'A'. -/
theorem C10_empty_section_still_reads_version_witness :
    parse_eabi_attr_section [65] 0 0 (-1) = (true, .ok ([65], 1, 1)) :=
  C10_empty_section_still_reads_version [65] 0 (-1) (by decide)
